import Mathlib

set_option maxRecDepth 100000

/-!
Verification development for the question-answering agent repository.

Part 1 — URL detector (`URLDetector` in `multimodal_content_handler.py`).
The Python class matches text against the composite regular expression

  `(?:(?:https?|ftp)://|www\.)[^\s<>"{}|\\^` + "`" + `\[\]]+(?:\.[...]+)*`
  `|(?:[\w\-]+\.)+[a-zA-Z]{2,}(?:/[...]*)?`
  `|(?:file://[...]+)`
  `|(?:data:[...]+)`         (IGNORECASE)

with `findall` (leftmost, non-overlapping, branch-order priority, greedy),
then normalizes each match (prepend `https://` when no scheme prefix),
validates it with `urllib.parse.urlparse` (non-empty scheme, and netloc
non-empty or scheme `file`) and deduplicates with `list(set(...))`.

The matcher below is a faithful executable model of that specific pattern
under Python `re` semantics.  Case-insensitivity is modelled for ASCII
letters (the pattern's literals are ASCII); `\s`, `\w` and `\d` are
modelled by their ASCII meanings.  `list(set(...))` returns the distinct
URLs in an unspecified order, which `List.dedup` refines; all theorems
about the output are stated in terms of membership and multiplicity,
which are order-independent.
-/

/-- Model of Python's `\s` (ASCII whitespace). -/
def isPySpace (c : Char) : Bool :=
  c == ' ' || c == '\t' || c == '\n' || c == '\r' || c == '\x0b' || c == '\x0c'

/-- The characters excluded by the regex character class `[^\s<>"{}|\\^`...`]`. -/
def urlExcluded : List Char := ("<>\x22\x7b\x7d|\\^`[]").data

/-- Membership in the regex character class `[^\s<>"{}|\\^` ... `\[\]]`. -/
def isUrlChar (c : Char) : Bool := !(isPySpace c) && !(urlExcluded.contains c)

/-- ASCII letter, the class `[a-zA-Z]`. -/
def isAsciiAlpha (c : Char) : Bool := ('a' ≤ c && c ≤ 'z') || ('A' ≤ c && c ≤ 'Z')

/-- ASCII digit. -/
def isDigitCh (c : Char) : Bool := '0' ≤ c && c ≤ '9'

/-- The class `[\w\-]` (word character or dash, ASCII model). -/
def isWordDash (c : Char) : Bool := isAsciiAlpha c || isDigitCh c || c == '_' || c == '-'

/-- The scheme-tail class `[a-zA-Z\d+\-.]` of the normalization check. -/
def isSchemeChar (c : Char) : Bool := isAsciiAlpha c || isDigitCh c || c == '+' || c == '-' || c == '.'

/-- Length of the maximal prefix of `l` whose characters satisfy `p`
(the span a greedy `X*` / `X+` consumes). -/
def runLen (p : Char → Bool) (l : List Char) : Nat := (l.takeWhile p).length

/-- Case-insensitive match of one subject character `c` against one
(lowercase or symbol) pattern character `a`. -/
def ciEq (a c : Char) : Bool := c == a || c == a.toUpper

/-- Case-insensitive literal-prefix test: does the subject (second list)
start with the pattern (first list)? -/
def swCI : List Char → List Char → Bool
  | [], _ => true
  | _ :: _, [] => false
  | a :: as, c :: cs => ciEq a c && swCI as cs

def sHttps : List Char := ("https://").data
def sHttp : List Char := ("http://").data
def sFtp : List Char := ("ftp://").data
def sWww : List Char := ("www.").data
def sFile : List Char := ("file://").data
def sData : List Char := ("data:").data

/-- After a literal prefix of length `k`, consume a mandatory greedy run of
URL characters; the branch fails (0) when the run is empty. -/
def withRun (k : Nat) (l : List Char) : Nat :=
  let r := runLen isUrlChar (l.drop k)
  if r = 0 then 0 else k + r

/-- Branch 1 of the pattern: `(?:(?:https?|ftp)://|www\.)C+(?:\.C+)*`.
Since `.` belongs to the class `C`, the greedy `C+(?:\.C+)*` consumes
exactly the maximal run of URL characters. -/
def branch1 (l : List Char) : Nat :=
  if swCI sHttps l then withRun 8 l
  else if swCI sHttp l then withRun 7 l
  else if swCI sFtp l then withRun 6 l
  else if swCI sWww l then withRun 4 l
  else 0

/-- Matches `[a-zA-Z]{2,}(?:/C*)?` — greedy letters (at least two) and an optional
slash-path. -/
def letterTail (l : List Char) : Option Nat :=
  let k := runLen isAsciiAlpha l
  if 2 ≤ k then
    if (l.drop k).head? = some '/' then
      some (k + 1 + runLen isUrlChar (l.drop (k + 1)))
    else some k
  else none

/-- Backtracking tail of branch 2: `(?:[\w\-]+\.)*[a-zA-Z]{2,}(?:/C*)?`,
preferring (greedily) to consume another `[\w\-]+\.` repetition, and on
failure of the continuation falling back to the letter-run at the current
position — exactly Python's backtracking order, since each repetition's
content is deterministic (`.` is not a word character). -/
def b2tailF : Nat → List Char → Option Nat
  | 0, _ => none
  | fuel + 1, l =>
    let r := runLen isWordDash l
    if 1 ≤ r ∧ (l.drop r).head? = some '.' then
      match b2tailF fuel (l.drop (r + 1)) with
      | some n => some (r + 1 + n)
      | none => letterTail l
    else letterTail l

/-- Branch 2 of the pattern: `(?:[\w\-]+\.)+[a-zA-Z]{2,}(?:/C*)?` — one
mandatory repetition, then the backtracking tail. -/
def branch2 (l : List Char) : Nat :=
  let r := runLen isWordDash l
  if 1 ≤ r ∧ (l.drop r).head? = some '.' then
    match b2tailF (l.length + 1) (l.drop (r + 1)) with
    | some n => r + 1 + n
    | none => 0
  else 0

/-- Branch 3: `file://C+` (case-insensitive). -/
def branch3 (l : List Char) : Nat := if swCI sFile l then withRun 7 l else 0

/-- Branch 4: `data:C+` (case-insensitive). -/
def branch4 (l : List Char) : Nat := if swCI sData l then withRun 5 l else 0

/-- Length of the regex match anchored at the head of `l` (0 = no match),
trying the four alternation branches in the pattern's order. -/
def matchLenAt (l : List Char) : Nat :=
  if branch1 l ≠ 0 then branch1 l
  else if branch2 l ≠ 0 then branch2 l
  else if branch3 l ≠ 0 then branch3 l
  else branch4 l

/-- The `re.findall` driver: scan left to right; on a match, emit it and resume
after its end (matches are never empty); otherwise advance one character.
`fuel` only bounds the recursion and is instantiated with the list length. -/
def scanF : Nat → List Char → List (List Char)
  | 0, _ => []
  | _, [] => []
  | fuel + 1, c :: cs =>
    if matchLenAt (c :: cs) = 0 then scanF fuel cs
    else ((c :: cs).take (matchLenAt (c :: cs))) :: scanF fuel ((c :: cs).drop (matchLenAt (c :: cs)))

/-- Model of `URL_PATTERN.findall(text)`. -/
def pyFindall (l : List Char) : List (List Char) := scanF l.length l

/-- Python `str.strip()` (ASCII-whitespace model). -/
def pyStripL (l : List Char) : List Char :=
  ((l.dropWhile isPySpace).reverse.dropWhile isPySpace).reverse

/-- The normalization gate `re.match(r'^[a-zA-Z][a-zA-Z\d+\-.]*:', url)`:
a leading ASCII letter, a run of scheme characters, then a colon. -/
def matchesScheme (l : List Char) : Bool :=
  match l with
  | [] => false
  | c :: cs => isAsciiAlpha c && ((cs.dropWhile isSchemeChar).head? == some ':')

/-- Case-sensitive literal-prefix test (Python `str.startswith`), pattern
first. -/
def swLit : List Char → List Char → Bool
  | [], _ => true
  | _ :: _, [] => false
  | a :: as, c :: cs => c == a && swLit as cs

/-- The `# Add protocol if missing` block of `extract_urls`.
`url.startswith('www.')` and `'.' in url` are modelled on the character
list. -/
def normalizeUrl (url : String) : String :=
  if matchesScheme url.data then url
  else if swLit sWww url.data then ("https://") ++ url
  else if url.data.contains '.' && !(swLit [('.')] url.data) then ("https://") ++ url
  else url

/-- The two components of `urllib.parse.urlparse` that `extract_urls`
inspects. -/
structure UrlParts where
  scheme : String
  netloc : String
  deriving DecidableEq

/-- A character that ends the netloc in `urlparse` (`/`, `?` or `#`). -/
def notNetDelim (c : Char) : Bool := !(c == '/' || c == '?' || c == '#')

/-- Scheme splitting of `urllib.parse.urlsplit`: if the text before the
first `:` is a non-empty run of scheme characters starting with an ASCII
letter, return it with the remainder after the colon. -/
def splitSchemeRest (l : List Char) : Option (List Char × List Char) :=
  match l with
  | [] => none
  | c :: cs =>
    if isAsciiAlpha c then
      match cs.dropWhile isSchemeChar with
      | ':' :: r => some (c :: cs.takeWhile isSchemeChar, r)
      | _ => none
    else none

/-- Netloc extraction of `urlsplit`: present only when `url[:2] == '//'`,
up to the first `/`, `?` or `#`. -/
def netlocOf (rest : List Char) : String :=
  if rest.take 2 = ['/', '/'] then String.mk ((rest.drop 2).takeWhile notNetDelim)
  else ("")

/-- Model of `urlparse(url)` restricted to the `scheme` (lower-cased, as in Python)
and `netloc` attributes. -/
def urlparseSN (url : String) : UrlParts :=
  match splitSchemeRest url.data with
  | some (sch, rest) => ⟨String.mk (sch.map Char.toLower), netlocOf rest⟩
  | none => ⟨(""), netlocOf url.data⟩

/-- The validation `parsed.scheme and (parsed.netloc or parsed.scheme == 'file')`. -/
def validUrl (url : String) : Bool :=
  let p := urlparseSN url
  (!(p.scheme == (""))) && ((!(p.netloc == (""))) || p.scheme == ("file"))

/-- Per-match body of the `for match in matches` loop: strip, normalize,
validate; `none` models a candidate that is discarded. -/
def processMatch (m : List Char) : Option String :=
  let url := normalizeUrl (String.mk (pyStripL m))
  if validUrl url then some url else none

/-- Model of `URLDetector.extract_urls` — the empty-text early return, the match
loop, and the final `list(set(urls))` (modelled by `dedup`; the order of
the Python result is unspecified). -/
def extract_urls (text : String) : List String :=
  if text = ("") then []
  else ((pyFindall text.data).filterMap processMatch).dedup

/-- The `re.search` driver for `contains_urls`: is there a match at some
position? -/
def searchF : Nat → List Char → Bool
  | 0, _ => false
  | _, [] => false
  | fuel + 1, c :: cs => (matchLenAt (c :: cs) != 0) || searchF fuel cs

/-- Model of `URLDetector.contains_urls`. -/
def contains_urls (text : String) : Bool := searchF text.data.length text.data

/-!
Part 2 — Content assembler (`MultiModalContentHandler` in
`multimodal_content_handler.py`) and the pipeline (`Agent` in `agent.py`).

The external collaborators (the HTTP download of `/files/{task_id}`, the
Gemini file upload, the model invocation, and the file list/delete calls
of cleanup) are modelled by an environment of call outcomes.  Each
operation additionally returns the list of external calls it performed,
so that "attempted exactly once / at most three times" properties are
statable.  The LangGraph graph built by `Agent._build_graph` is linear
(`analyze → agent → cleanup`) with no error edges; a node exception
propagates out of `invoke` and is caught by `process_question`'s
`try/except`, which is modelled by `Except` sequencing.  The tenacity
decorator `retry(stop=stop_after_attempt(3), wait=wait_exponential(...))`
re-invokes the model on any exception up to 3 attempts and then raises a
`RetryError` wrapping the last exception (the waits only delay, they do
not change results).
-/

/-- The object returned by `genai_client.files.upload`. -/
structure UploadedFile where
  name : String
  uri : String
  deriving DecidableEq

/-- Outcome of the one download-then-upload sequence of
`_create_file_part`: `requests.get`/`raise_for_status` raises, or
`files.upload` raises, or the upload succeeds. -/
inductive FetchOutcome where
  | downloadError (msg : String)
  | uploadError (msg : String)
  | success (file : UploadedFile)
  deriving DecidableEq

/-- One content part of the assembled message: `types.Part(text=...)`, the
uploaded file object, or `types.Part(file_data=types.FileData(file_uri=url))`. -/
inductive ContentPart where
  | text (s : String)
  | file (f : UploadedFile)
  | link (uri : String)
  deriving DecidableEq

/-- External calls, recorded for attempt counting. -/
inductive CallEvent where
  | download
  | upload
  | modelCall
  | listFiles
  | deleteFile (name : String)
  deriving DecidableEq

/-- Python truthiness of an optional string (`None` and `""` are falsy). -/
def truthyS : Option String → Bool
  | none => false
  | some s => !(s == (""))

/-- Python truthiness of an optional list (`None` and `[]` are falsy). -/
def truthyL : Option (List String) → Bool
  | none => false
  | some l => !(l.isEmpty)

/-- Model of `MultiModalContentHandler._create_file_part`: download the resource,
upload it to Gemini; both `except` clauses swallow the exception and
return `None`.  Also reports which external calls were attempted. -/
def create_file_part (fetch : FetchOutcome) : Option UploadedFile × List CallEvent :=
  match fetch with
  | .downloadError _ => (none, [CallEvent.download])
  | .uploadError _ => (none, [CallEvent.download, CallEvent.upload])
  | .success f => (some f, [CallEvent.download, CallEvent.upload])

/-- Model of `MultiModalContentHandler._process_urls`: one link part per URL, in
order. -/
def process_urls (urls : List String) : List ContentPart := urls.map ContentPart.link

/-- Model of `MultiModalContentHandler.build_multimodal_content`: text part first,
then (if `task_id and file_name` is truthy and the fetch succeeded) the
file part, then the link parts.  Returns the part list and the external
calls performed. -/
def build_multimodal_content (text : String) (task_id file_name : Option String)
    (detected_urls : Option (List String)) (fetch : FetchOutcome) :
    List ContentPart × List CallEvent :=
  let first := [ContentPart.text text]
  let step :=
    if truthyS task_id && truthyS file_name then
      match create_file_part fetch with
      | (some p, evs) => (first ++ [ContentPart.file p], evs)
      | (none, evs) => (first, evs)
    else (first, [])
  let parts :=
    if truthyL detected_urls then step.1 ++ process_urls (detected_urls.getD [])
    else step.1
  (parts, step.2)

/-- Outcomes of all external calls one `process_question` run can make. -/
structure Env where
  fetch : FetchOutcome
  model : Nat → Except String String
  listFiles1 : Except String (List String)
  listFiles2 : Except String (List String)
  deleteResults : String → Except String Unit

/-- The input dict of `process_question` (`question` defaults to `""`,
`task_id` and `file_name` default to `None`). -/
structure QuestionData where
  question : Option String
  task_id : Option String
  file_name : Option String

/-- Model of `Agent._generate_content_with_retry` under
`retry(stop=stop_after_attempt(3), ...)`: up to three calls, retried on
any exception; exhaustion raises a `RetryError` wrapping the last
exception.  Returns the result and the number of attempts made. -/
def generate_content_with_retry (model : Nat → Except String String) :
    Except String String × Nat :=
  match model 0 with
  | .ok a => (.ok a, 1)
  | .error _ =>
    match model 1 with
    | .ok a => (.ok a, 2)
    | .error _ =>
      match model 2 with
      | .ok a => (.ok a, 3)
      | .error e => (.error (("RetryError[") ++ e ++ ("]")), 3)

/-- Model of `Agent._cleanup_files`: `files.list()` (outside any `try`), one
`files.delete` per listed file inside a per-file `try/except` that only
logs, then the `print(self.genai_client.files.list())` line (also outside
any `try`).  An exception from either `list()` call propagates out of the
node; a `delete` exception never does (both match arms below continue
identically, mirroring the `except ... logger.error` body). -/
def cleanup_files (env : Env) : Except String Unit × List CallEvent :=
  match env.listFiles1 with
  | .error e => (.error e, [CallEvent.listFiles])
  | .ok files =>
    let evs := files.map (fun name =>
      match env.deleteResults name with
      | .ok _ => CallEvent.deleteFile name
      | .error _ => CallEvent.deleteFile name)
    match env.listFiles2 with
    | .error e => (.error e, CallEvent.listFiles :: evs ++ [CallEvent.listFiles])
    | .ok _ => (.ok (), CallEvent.listFiles :: evs ++ [CallEvent.listFiles])

/-- Model of `Agent._analyze_input`: URL detection plus content assembly; none of
its operations raise (file-fetch failures are absorbed inside
`_create_file_part`). -/
def analyze_input (env : Env) (q : QuestionData) :
    (List ContentPart × List String) × List CallEvent :=
  let text := q.question.getD ("")
  let urls := extract_urls text
  let ba := build_multimodal_content text q.task_id q.file_name (some urls) env.fetch
  ((ba.1, urls), ba.2)

/-- Model of `Agent.process_question`: runs the linear graph
`analyze → agent → cleanup` inside `try/except`, returning
`final_answer` on success and `f"Error: {e}"` when any node raises.
Also returns the trace of external calls made. -/
def process_question (env : Env) (q : QuestionData) : String × List CallEvent :=
  let a := analyze_input env q
  let g := generate_content_with_retry env.model
  let evs := a.2 ++ List.replicate g.2 CallEvent.modelCall
  match g.1 with
  | .error e => ((("Error: ") ++ e), evs)
  | .ok answer =>
    match cleanup_files env with
    | (.error e, evs3) => ((("Error: ") ++ e), evs ++ evs3)
    | (.ok _, evs3) => (answer, evs ++ evs3)

/-!
Part 3 — helper lemmas.
-/

lemma strAppendAssoc (a b c : String) : (a ++ b) ++ c = a ++ (b ++ c) := by
  cases a with | mk da =>
  cases b with | mk db =>
  cases c with | mk dc =>
  show String.mk ((da ++ db) ++ dc) = String.mk (da ++ (db ++ dc))
  rw [List.append_assoc]

lemma errorPrefixShape (e : String) :
    ∃ rest, ("Error: ") ++ e = ("Error:") ++ rest := by
  refine ⟨(" ") ++ e, ?_⟩
  rw [← strAppendAssoc]
  congr 1

lemma build_head_text (text : String) (task fname : Option String)
    (urls : Option (List String)) (fetch : FetchOutcome) :
    ∃ rest, (build_multimodal_content text task fname urls fetch).1
      = ContentPart.text text :: rest := by
  cases fetch <;>
    simp only [build_multimodal_content, create_file_part] <;>
    split <;> (try split) <;> simp [process_urls]

lemma build_events_shape (text : String) (task fname : Option String)
    (urls : Option (List String)) (fetch : FetchOutcome) :
    (build_multimodal_content text task fname urls fetch).2 = []
    ∨ (build_multimodal_content text task fname urls fetch).2 = [CallEvent.download]
    ∨ (build_multimodal_content text task fname urls fetch).2
        = [CallEvent.download, CallEvent.upload] := by
  cases fetch <;>
    simp only [build_multimodal_content, create_file_part] <;>
    split <;> simp

lemma build_events_file (text : String) (task fname : Option String)
    (urls : Option (List String)) (fetch : FetchOutcome)
    (h : (truthyS task && truthyS fname) = true) :
    (build_multimodal_content text task fname urls fetch).2 = [CallEvent.download]
    ∨ (build_multimodal_content text task fname urls fetch).2
        = [CallEvent.download, CallEvent.upload] := by
  cases fetch <;> simp [build_multimodal_content, create_file_part, h]

lemma build_events_file_okdl (text : String) (task fname : Option String)
    (urls : Option (List String)) (fetch : FetchOutcome)
    (h : (truthyS task && truthyS fname) = true)
    (hdl : ∀ m, fetch ≠ FetchOutcome.downloadError m) :
    (build_multimodal_content text task fname urls fetch).2
      = [CallEvent.download, CallEvent.upload] := by
  cases fetch with
  | downloadError m => exact absurd rfl (hdl m)
  | uploadError m => simp [build_multimodal_content, create_file_part, h]
  | success f => simp [build_multimodal_content, create_file_part, h]

lemma cleanup_delete_map (env : Env) (files : List String) :
    files.map (fun name =>
      match env.deleteResults name with
      | .ok _ => CallEvent.deleteFile name
      | .error _ => CallEvent.deleteFile name) = files.map CallEvent.deleteFile := by
  apply List.map_congr_left
  intro a _
  cases env.deleteResults a <;> rfl

lemma cleanup_events_shape (env : Env) :
    (cleanup_files env).2 = [CallEvent.listFiles]
    ∨ ∃ files, env.listFiles1 = Except.ok files ∧
        (cleanup_files env).2
          = CallEvent.listFiles :: (files.map CallEvent.deleteFile ++ [CallEvent.listFiles]) := by
  cases h : env.listFiles1 with
  | error e => simp [cleanup_files, h]
  | ok files =>
    right
    refine ⟨files, rfl, ?_⟩
    cases h2 : env.listFiles2 <;> simp [cleanup_files, h, h2, cleanup_delete_map]

lemma gen_attempts_le (model : Nat → Except String String) :
    (generate_content_with_retry model).2 ≤ 3 := by
  unfold generate_content_with_retry
  cases model 0 <;> simp <;> cases model 1 <;> simp <;> cases model 2 <;> simp

lemma gen_attempts_retry (model : Nat → Except String String) (e : String)
    (h : model 0 = Except.error e) :
    2 ≤ (generate_content_with_retry model).2 := by
  unfold generate_content_with_retry
  rw [h]
  cases model 1 <;> simp <;> cases model 2 <;> simp

lemma gen_error_of_all_fail (model : Nat → Except String String)
    (h : ∀ i, i < 3 → ∃ e, model i = Except.error e) :
    ∃ e, (generate_content_with_retry model).1 = Except.error e := by
  obtain ⟨e0, h0⟩ := h 0 (by omega)
  obtain ⟨e1, h1⟩ := h 1 (by omega)
  obtain ⟨e2, h2⟩ := h 2 (by omega)
  refine ⟨("RetryError[") ++ e2 ++ ("]"), ?_⟩
  simp [generate_content_with_retry, h0, h1, h2]

/-!
Part 4 — the claims.
-/

/-- C1.  `build_multimodal_content` with a (truthy) file reference whose
fetch succeeds returns exactly `1 + 1 + N` parts — the text part holding
the input text at index 0, the uploaded-file part at index 1 and one link
part per detected URL in input order; with no file reference it returns
the text part followed by the link parts; the result is never empty. -/
theorem build_multimodal_ordering : ∀ (text t f : String) (file : UploadedFile)
    (urls : List String) (task fname : Option String) (fetch : FetchOutcome),
    (t ≠ ("") → f ≠ ("") →
      (build_multimodal_content text (some t) (some f) (some urls)
          (FetchOutcome.success file)).1
        = ContentPart.text text :: ContentPart.file file :: urls.map ContentPart.link)
    ∧ ((truthyS task && truthyS fname) = false →
      (build_multimodal_content text task fname (some urls) fetch).1
        = ContentPart.text text :: urls.map ContentPart.link)
    ∧ (build_multimodal_content text task fname (some urls) fetch).1 ≠ [] := by
  intro text t f file urls task fname fetch
  refine ⟨?_, ?_, ?_⟩
  · intro ht hf
    have h1 : (truthyS (some t) && truthyS (some f)) = true := by
      simp [truthyS, ht, hf]
    cases urls <;>
      simp [build_multimodal_content, create_file_part, truthyL, h1, process_urls]
  · intro h
    cases urls <;>
      simp [build_multimodal_content, create_file_part, truthyL, h, process_urls]
  · obtain ⟨rest, hr⟩ := build_head_text text task fname (some urls) fetch
    simp [hr]

/-- Witness for C1 at concrete inputs. -/
theorem build_multimodal_ordering_witness :
    (build_multimodal_content ("q") (some ("t1")) (some ("f.png"))
        (some [("https://a.com")]) (FetchOutcome.success ⟨("n"), ("u")⟩)).1
      = ContentPart.text ("q") :: ContentPart.file ⟨("n"), ("u")⟩
          :: [("https://a.com")].map ContentPart.link :=
  (build_multimodal_ordering ("q") ("t1") ("f.png") ⟨("n"), ("u")⟩
      [("https://a.com")] (some ("t1")) (some ("f.png"))
      (FetchOutcome.success ⟨("n"), ("u")⟩)).1 (by decide) (by decide)

/-- C4.  When the file download or the file upload raises,
`build_multimodal_content` still returns normally (it is a total
function of the fetch outcome) and the output is exactly the text part
followed by the link parts — nothing is appended for the failed file. -/
theorem build_multimodal_fetch_failure : ∀ (text : String)
    (task fname : Option String) (urls : List String) (m : String),
    (build_multimodal_content text task fname (some urls)
        (FetchOutcome.downloadError m)).1
      = ContentPart.text text :: urls.map ContentPart.link
    ∧ (build_multimodal_content text task fname (some urls)
        (FetchOutcome.uploadError m)).1
      = ContentPart.text text :: urls.map ContentPart.link := by
  intro text task fname urls m
  constructor <;>
    (cases h : (truthyS task && truthyS fname) <;> cases urls <;>
      simp [build_multimodal_content, create_file_part, truthyL, h, process_urls])

/-- C10.  On the input `"data:text/plain,hello"` the two public detector
methods disagree: `contains_urls` is true (the `data:` lexical shape
matches the pattern) while `extract_urls` is empty (the candidate parses
with scheme `data` but no network authority, so validation discards
it). -/
theorem contains_vs_extract_data_uri :
    contains_urls ("data:text/plain,hello") = true
    ∧ extract_urls ("data:text/plain,hello") = [] := by decide

/-- C3.  `process_question` always returns a string: the model's answer
when every stage succeeds, and a string beginning with `"Error:"`
whenever any stage raises — in particular when the model invocation
fails on 3 consecutive attempts.  (Totality — "never propagates an
exception" — is expressed by `process_question` being a total function
into `String`; every raising path is reflected in the `"Error:"`
disjunct.) -/
theorem process_question_always_string : ∀ (env : Env) (q : QuestionData),
    ((∃ rest, (process_question env q).1 = ("Error:") ++ rest)
      ∨ (∃ a, (generate_content_with_retry env.model).1 = Except.ok a
          ∧ (process_question env q).1 = a))
    ∧ ((∀ i, i < 3 → ∃ e, env.model i = Except.error e) →
      ∃ rest, (process_question env q).1 = ("Error:") ++ rest) := by
  intro env q
  constructor
  · cases hg : (generate_content_with_retry env.model).1 with
    | error e =>
      left
      simp only [process_question, hg]
      exact errorPrefixShape e
    | ok a =>
      cases hc : cleanup_files env with
      | mk cres evs3 =>
        cases cres with
        | error e =>
          left
          simp only [process_question, hg, hc]
          exact errorPrefixShape e
        | ok u =>
          right
          refine ⟨a, rfl, ?_⟩
          simp only [process_question, hg, hc]
  · intro h
    obtain ⟨e, he⟩ := gen_error_of_all_fail env.model h
    simp only [process_question, he]
    exact errorPrefixShape e

/-- Witness for C3: with a model that fails all three attempts, the
result begins with `"Error:"`. -/
theorem process_question_always_string_witness :
    ∃ rest, (process_question
        ⟨FetchOutcome.downloadError (""), fun _ => Except.error ("boom"),
          Except.ok [], Except.ok [], fun _ => Except.ok ()⟩
        ⟨some (""), none, none⟩).1 = ("Error:") ++ rest :=
  (process_question_always_string
      ⟨FetchOutcome.downloadError (""), fun _ => Except.error ("boom"),
        Except.ok [], Except.ok [], fun _ => Except.ok ()⟩
      ⟨some (""), none, none⟩).2 (fun i _ => ⟨("boom"), rfl⟩)

lemma analyze_events (env : Env) (q : QuestionData) :
    (analyze_input env q).2
      = (build_multimodal_content (q.question.getD ("")) q.task_id q.file_name
          (some (extract_urls (q.question.getD ("")))) env.fetch).2 := rfl

lemma process_events_of_error (env : Env) (q : QuestionData) (e : String)
    (hg : (generate_content_with_retry env.model).1 = Except.error e) :
    (process_question env q).2
      = (analyze_input env q).2
        ++ List.replicate (generate_content_with_retry env.model).2 CallEvent.modelCall := by
  simp only [process_question, hg]

lemma process_events_of_ok (env : Env) (q : QuestionData) (a : String)
    (hg : (generate_content_with_retry env.model).1 = Except.ok a) :
    (process_question env q).2
      = ((analyze_input env q).2
        ++ List.replicate (generate_content_with_retry env.model).2 CallEvent.modelCall)
        ++ (cleanup_files env).2 := by
  simp only [process_question, hg]
  cases hc : cleanup_files env with
  | mk cres evs3 => cases cres <;> simp

lemma cleanup_events_of_ok (env : Env) (files : List String)
    (h : env.listFiles1 = Except.ok files) :
    (cleanup_files env).2
      = CallEvent.listFiles :: (files.map CallEvent.deleteFile ++ [CallEvent.listFiles]) := by
  cases h2 : env.listFiles2 <;> simp [cleanup_files, h, h2, cleanup_delete_map]

lemma count_map_delete_ne (files : List String) (e : CallEvent)
    (h : ∀ name, e ≠ CallEvent.deleteFile name) :
    (files.map CallEvent.deleteFile).count e = 0 := by
  rw [List.count_eq_zero]
  intro hm
  obtain ⟨x, _, hx⟩ := List.mem_map.mp hm
  exact h x hx.symm

lemma cleanup_count_dlup (env : Env) (e : CallEvent)
    (h : ∀ name, e ≠ CallEvent.deleteFile name) (h2 : e ≠ CallEvent.listFiles) :
    (cleanup_files env).2.count e = 0 := by
  rcases cleanup_events_shape env with hs | ⟨files, _, hs⟩
  · simp [hs, List.count_eq_zero, h2]
  · simp [hs, List.count_cons, List.count_append, count_map_delete_ne files e h,
      List.count_eq_zero, h2]

/-- C8 counterexample.  The claim "the file download, the file upload, and
each cleanup deletion are each attempted exactly once" is false: for a
question that does carry a file reference but whose download raises, the
upload is attempted zero times (and for a question with no file
reference, even the download is attempted zero times). -/
theorem upload_attempted_zero_times :
    ((process_question
        ⟨FetchOutcome.downloadError ("net"), fun _ => Except.ok ("a"),
          Except.ok [], Except.ok [], fun _ => Except.ok ()⟩
        ⟨some (""), some ("t1"), some ("f.png")⟩).2).count CallEvent.upload = 0 := by decide

/-- C8 (amended).  The model invocation is attempted at most 3 times per
question, with a retry triggered by any exception; the file download and
upload are attempted at most once each — the download exactly once when
the question carries a truthy file reference, and the upload exactly once
when additionally the download does not raise; when cleanup runs, each
listed file receives exactly one deletion attempt.  No retry is applied
to any of these and their failures are absorbed locally. -/
theorem call_attempt_bounds : ∀ (env : Env) (q : QuestionData),
    ((process_question env q).2.count CallEvent.modelCall ≤ 3)
    ∧ ((∃ e, env.model 0 = Except.error e) →
        2 ≤ (process_question env q).2.count CallEvent.modelCall)
    ∧ ((process_question env q).2.count CallEvent.download ≤ 1)
    ∧ ((process_question env q).2.count CallEvent.upload ≤ 1)
    ∧ ((truthyS q.task_id && truthyS q.file_name) = true →
        (process_question env q).2.count CallEvent.download = 1)
    ∧ ((truthyS q.task_id && truthyS q.file_name) = true →
        (∀ m, env.fetch ≠ FetchOutcome.downloadError m) →
        (process_question env q).2.count CallEvent.upload = 1)
    ∧ (∀ files name, env.listFiles1 = Except.ok files →
        (∃ a, (generate_content_with_retry env.model).1 = Except.ok a) →
        (process_question env q).2.count (CallEvent.deleteFile name) = files.count name) := by
  intro env q
  have hA := build_events_shape (q.question.getD ("")) q.task_id q.file_name
      (some (extract_urls (q.question.getD ("")))) env.fetch
  rw [← analyze_events env q] at hA
  have hgen := gen_attempts_le env.model
  have hcount : ∀ e : CallEvent,
      (process_question env q).2.count e
        = (analyze_input env q).2.count e
          + (List.replicate (generate_content_with_retry env.model).2
              CallEvent.modelCall).count e
          + (match (generate_content_with_retry env.model).1 with
            | Except.ok _ => (cleanup_files env).2.count e
            | Except.error _ => 0) := by
    intro e
    cases hg : (generate_content_with_retry env.model).1 with
    | error m => rw [process_events_of_error env q m hg]; simp
    | ok a => rw [process_events_of_ok env q a hg]; simp; omega
  have hclean0 : ∀ e : CallEvent, (∀ name, e ≠ CallEvent.deleteFile name) →
      e ≠ CallEvent.listFiles →
      (match (generate_content_with_retry env.model).1 with
        | Except.ok _ => (cleanup_files env).2.count e
        | Except.error _ => 0) = 0 := by
    intro e h1 h2
    cases (generate_content_with_retry env.model).1 with
    | error m => rfl
    | ok a => exact cleanup_count_dlup env e h1 h2
  refine ⟨?_, ?_, ?_, ?_, ?_, ?_, ?_⟩
  · rw [hcount CallEvent.modelCall,
      hclean0 CallEvent.modelCall (by intro n h; cases h) (by intro h; cases h)]
    rcases hA with h | h | h <;> simp [h] <;> omega
  · rintro ⟨e, he⟩
    have h2 := gen_attempts_retry env.model e he
    rw [hcount CallEvent.modelCall,
      hclean0 CallEvent.modelCall (by intro n h; cases h) (by intro h; cases h)]
    rcases hA with h | h | h <;> simp [h] <;> omega
  · rw [hcount CallEvent.download,
      hclean0 CallEvent.download (by intro n h; cases h) (by intro h; cases h)]
    rcases hA with h | h | h <;> simp [h, List.count_replicate]
  · rw [hcount CallEvent.upload,
      hclean0 CallEvent.upload (by intro n h; cases h) (by intro h; cases h)]
    rcases hA with h | h | h <;> simp [h, List.count_replicate]
  · intro ht
    have hAf := build_events_file (q.question.getD ("")) q.task_id q.file_name
        (some (extract_urls (q.question.getD ("")))) env.fetch ht
    rw [← analyze_events env q] at hAf
    rw [hcount CallEvent.download,
      hclean0 CallEvent.download (by intro n h; cases h) (by intro h; cases h)]
    rcases hAf with h | h <;> simp [h, List.count_replicate]
  · intro ht hdl
    have hAf := build_events_file_okdl (q.question.getD ("")) q.task_id q.file_name
        (some (extract_urls (q.question.getD ("")))) env.fetch ht hdl
    rw [← analyze_events env q] at hAf
    rw [hcount CallEvent.upload,
      hclean0 CallEvent.upload (by intro n h; cases h) (by intro h; cases h)]
    simp [hAf, List.count_replicate]
  · intro files name hlist hok
    obtain ⟨a, ha⟩ := hok
    rw [hcount (CallEvent.deleteFile name)]
    rw [ha]
    have hC := cleanup_events_of_ok env files hlist
    have hmap : (files.map CallEvent.deleteFile).count (CallEvent.deleteFile name)
        = files.count name :=
      List.count_map_of_injective files CallEvent.deleteFile
        (fun a b h => by injection h) name
    have hA0 : (analyze_input env q).2.count (CallEvent.deleteFile name) = 0 := by
      rcases hA with h | h | h <;> simp [h]
    rw [hA0, hC]
    simp [List.count_cons, List.count_append, List.count_replicate, hmap]

/-- Witness for C8 (amended) at a concrete environment: a file-bearing
question with a successful fetch downloads exactly once, and the single
listed file is deleted exactly once. -/
theorem call_attempt_bounds_witness :
    ((process_question
        ⟨FetchOutcome.success ⟨("n"), ("u")⟩, fun _ => Except.ok ("a"),
          Except.ok [("f1")], Except.ok [], fun _ => Except.ok ()⟩
        ⟨some (""), some ("t"), some ("f")⟩).2).count CallEvent.download = 1
    ∧ ((process_question
        ⟨FetchOutcome.success ⟨("n"), ("u")⟩, fun _ => Except.ok ("a"),
          Except.ok [("f1")], Except.ok [], fun _ => Except.ok ()⟩
        ⟨some (""), some ("t"), some ("f")⟩).2).count (CallEvent.deleteFile ("f1"))
      = [("f1")].count ("f1") :=
  ⟨(call_attempt_bounds
      ⟨FetchOutcome.success ⟨("n"), ("u")⟩, fun _ => Except.ok ("a"),
        Except.ok [("f1")], Except.ok [], fun _ => Except.ok ()⟩
      ⟨some (""), some ("t"), some ("f")⟩).2.2.2.2.1 (by decide),
   (call_attempt_bounds
      ⟨FetchOutcome.success ⟨("n"), ("u")⟩, fun _ => Except.ok ("a"),
        Except.ok [("f1")], Except.ok [], fun _ => Except.ok ()⟩
      ⟨some (""), some ("t"), some ("f")⟩).2.2.2.2.2.2 [("f1")] ("f1") rfl ⟨("a"), rfl⟩⟩

/-- C9 counterexample.  Both halves of the claim fail on the code.
First: with the model answering `"42"` but the (un-guarded) `files.list()`
call inside `_cleanup_files` raising `"boom"`, the reported answer becomes
`"Error: boom"` instead of `"42"` — the same run with a succeeding
`files.list()` reports `"42"` — so a failure inside cleanup does change
the reported answer.  Second: when the model invocation fails, the
`cleanup` node is never executed (no `files.list()` call appears in the
trace), so cleanup is not attempted on every path. -/
theorem cleanup_failure_changes_answer :
    (process_question
        ⟨FetchOutcome.downloadError (""), fun _ => Except.ok ("42"),
          Except.error ("boom"), Except.ok [], fun _ => Except.ok ()⟩
        ⟨some (""), none, none⟩).1 = ("Error: boom")
    ∧ (process_question
        ⟨FetchOutcome.downloadError (""), fun _ => Except.ok ("42"),
          Except.ok [], Except.ok [], fun _ => Except.ok ()⟩
        ⟨some (""), none, none⟩).1 = ("42")
    ∧ ((process_question
        ⟨FetchOutcome.downloadError (""), fun _ => Except.error ("down"),
          Except.ok [], Except.ok [], fun _ => Except.ok ()⟩
        ⟨some (""), none, none⟩).2).count CallEvent.listFiles = 0 := by decide

/-- C9 (amended).  Cleanup is attempted exactly on the paths where the
model invocation succeeds (a failure in the earlier stages skips it);
the outcome of the per-file deletion calls never influences the reported
answer (their exceptions are caught and logged); but a failure of the
un-guarded `files.list()` call inside cleanup propagates and replaces the
reported answer with an `"Error: ..."` string. -/
theorem cleanup_path_and_failures : ∀ (env : Env) (q : QuestionData)
    (d : String → Except String Unit),
    ((process_question
        ⟨env.fetch, env.model, env.listFiles1, env.listFiles2, d⟩ q).1
      = (process_question env q).1)
    ∧ ((∃ a, (generate_content_with_retry env.model).1 = Except.ok a)
        ↔ CallEvent.listFiles ∈ (process_question env q).2)
    ∧ (∀ e a, env.listFiles1 = Except.error e →
        (generate_content_with_retry env.model).1 = Except.ok a →
        (process_question env q).1 = ("Error: ") ++ e) := by
  intro env q d
  refine ⟨?_, ?_, ?_⟩
  · cases hg : (generate_content_with_retry env.model).1 with
    | error m => simp only [process_question, hg]
    | ok a =>
      simp only [process_question, hg]
      cases h1 : env.listFiles1 with
      | error e => simp [cleanup_files, h1]
      | ok files => cases h2 : env.listFiles2 <;> simp [cleanup_files, h1, h2]
  · constructor
    · rintro ⟨a, ha⟩
      rw [process_events_of_ok env q a ha]
      rcases cleanup_events_shape env with hs | ⟨files, _, hs⟩ <;> simp [hs]
    · intro hmem
      cases hg : (generate_content_with_retry env.model).1 with
      | ok a => exact ⟨a, rfl⟩
      | error m =>
        exfalso
        rw [process_events_of_error env q m hg] at hmem
        have hA := build_events_shape (q.question.getD ("")) q.task_id q.file_name
            (some (extract_urls (q.question.getD ("")))) env.fetch
        rw [← analyze_events env q] at hA
        rcases List.mem_append.mp hmem with hm | hm
        · rcases hA with h | h | h <;> rw [h] at hm <;> simp at hm
        · exact absurd (List.eq_of_mem_replicate hm) (by intro hh; cases hh)
  · intro e a h1 hg
    simp only [process_question, hg, cleanup_files, h1]

/-- Witness for C9 (amended): a concrete run where the model succeeds with
`"7"` but the cleanup listing fails with `"zap"` reports `"Error: zap"`. -/
theorem cleanup_path_and_failures_witness :
    (process_question
        ⟨FetchOutcome.downloadError (""), fun _ => Except.ok ("7"),
          Except.error ("zap"), Except.ok [], fun _ => Except.ok ()⟩
        ⟨some (""), none, none⟩).1 = ("Error: ") ++ ("zap") :=
  (cleanup_path_and_failures
      ⟨FetchOutcome.downloadError (""), fun _ => Except.ok ("7"),
        Except.error ("zap"), Except.ok [], fun _ => Except.ok ()⟩
      ⟨some (""), none, none⟩ (fun _ => Except.ok ())).2.2 ("zap") ("7") rfl rfl

/-- C2.  Every string in the output of `extract_urls` parses (under the
`urlparse` model) with a non-empty scheme, and with a non-empty network
authority or scheme exactly `file`; candidates failing this validation
are discarded by the `filterMap` guard. -/
theorem extract_urls_valid : ∀ (text u : String), u ∈ extract_urls text →
    (urlparseSN u).scheme ≠ ("")
    ∧ ((urlparseSN u).netloc ≠ ("") ∨ (urlparseSN u).scheme = ("file")) := by
  intro text u hu
  unfold extract_urls at hu
  split at hu
  · cases hu
  · rw [List.mem_dedup] at hu
    obtain ⟨m, _, hm⟩ := List.mem_filterMap.mp hu
    simp only [processMatch] at hm
    split at hm
    case isTrue hv =>
      injection hm with hm2
      subst hm2
      unfold validUrl at hv
      simp only [Bool.and_eq_true, Bool.or_eq_true, Bool.not_eq_true', beq_iff_eq,
        beq_eq_false_iff_ne] at hv
      exact ⟨hv.1, hv.2⟩
    case isFalse => cases hm

/-- Witness for C2: the detector output of a concrete text satisfies the
parsed-URI invariant. -/
theorem extract_urls_valid_witness :
    (urlparseSN ("https://ex.com")).scheme ≠ ("")
    ∧ ((urlparseSN ("https://ex.com")).netloc ≠ ("")
        ∨ (urlparseSN ("https://ex.com")).scheme = ("file")) :=
  extract_urls_valid ("x https://ex.com") ("https://ex.com") (by decide)

/-- C7.  Each distinct normalized URL appears exactly once in the output
of `extract_urls` (deduplication); and deduplication is by exact string
equality after normalization — on a text containing `https://ex.com/`,
`HTTPS://ex.com` and `https://ex.com` (differing only by a trailing slash
or scheme casing) all three appear in the output. -/
theorem extract_urls_dedup_exact :
    (∀ (text u : String), u ∈ extract_urls text → (extract_urls text).count u = 1)
    ∧ ("https://ex.com/") ∈ extract_urls ("https://ex.com/ HTTPS://ex.com https://ex.com")
    ∧ ("HTTPS://ex.com") ∈ extract_urls ("https://ex.com/ HTTPS://ex.com https://ex.com")
    ∧ ("https://ex.com") ∈ extract_urls ("https://ex.com/ HTTPS://ex.com https://ex.com") := by
  refine ⟨?_, by decide, by decide, by decide⟩
  intro text u hu
  have hnd : (extract_urls text).Nodup := by
    unfold extract_urls
    split
    · exact List.nodup_nil
    · exact List.nodup_dedup _
  exact List.count_eq_one_of_mem hnd hu

/-- Witness for C7: a concrete output count. -/
theorem extract_urls_dedup_exact_witness :
    (extract_urls ("see https://host/path end")).count ("https://host/path") = 1 :=
  extract_urls_dedup_exact.1 ("see https://host/path end") ("https://host/path") (by decide)

/-!
Part 5 — machinery for the findall boundary lemma used by C5 and C6:
every character of a regex match is a URL character, so a match can never
cross a non-URL character; hence scanning `pre ++ u ++ post` with a
suitable boundary before `u` reaches `u` exactly.
-/

lemma take_add_split (l : List Char) (m n : Nat) :
    l.take (m + n) = l.take m ++ (l.drop m).take n := by
  induction m generalizing l with
  | zero => simp
  | succ k ih =>
    cases l with
    | nil => simp
    | cons c cs => simp [Nat.succ_add, List.take_succ_cons, List.drop_succ_cons, ih]

lemma take_runLen (p : Char → Bool) (l : List Char) :
    l.take (runLen p l) = l.takeWhile p := by
  induction l with
  | nil => simp [runLen]
  | cons c cs ih =>
    by_cases h : p c
    · simp [runLen, List.takeWhile_cons, h] at ih ⊢
      simpa [List.take_succ_cons] using ih
    · simp [runLen, List.takeWhile_cons, h]

lemma runLen_le (p : Char → Bool) (l : List Char) : runLen p l ≤ l.length := by
  induction l with
  | nil => simp [runLen]
  | cons c cs ih =>
    by_cases h : p c <;> simp [runLen, List.takeWhile_cons, h] at ih ⊢ <;> omega

lemma takeWhile_eq_nil_of_head (p : Char → Bool) (l : List Char)
    (h : ∀ c, l.head? = some c → p c = false) : l.takeWhile p = [] := by
  cases l with
  | nil => rfl
  | cons c cs => simp [List.takeWhile_cons, h c rfl]

lemma runLen_eq_zero_of_head (p : Char → Bool) (l : List Char)
    (h : ∀ c, l.head? = some c → p c = false) : runLen p l = 0 := by
  simp [runLen, takeWhile_eq_nil_of_head p l h]

lemma runLen_append_all (p : Char → Bool) (cs l : List Char)
    (h : ∀ c ∈ cs, p c = true) : runLen p (cs ++ l) = cs.length + runLen p l := by
  simp [runLen, List.takeWhile_append_of_pos h]

lemma take_one_of_head (l : List Char) (x : Char) (h : l.head? = some x) :
    l.take 1 = [x] := by
  cases l with
  | nil => cases h
  | cons c cs => simp at h; simp [h]

lemma all_imp_of_mem {p : Char → Bool} {l : List Char} (hall : l.all p = true)
    {c : Char} (h : c ∈ l) : p c = true :=
  List.all_eq_true.mp hall c h

lemma wordDash_urlChar (c : Char) (h : isWordDash c = true) : isUrlChar c = true := by
  simp only [isUrlChar, Bool.and_eq_true, Bool.not_eq_true']
  constructor
  · cases hs : isPySpace c
    · rfl
    · exfalso
      simp only [isPySpace, Bool.or_eq_true, beq_iff_eq] at hs
      rcases hs with (((((rfl | rfl) | rfl) | rfl) | rfl) | rfl) <;>
        exact absurd h (by decide)
  · cases he : urlExcluded.contains c
    · rfl
    · exfalso
      have hmem : c ∈ urlExcluded := by
        simpa [List.elem_iff] using he
      have hbad : (fun x => !(isWordDash x)) c = true :=
        all_imp_of_mem (p := fun x => !(isWordDash x)) (l := urlExcluded) (by decide) hmem
      simp only [Bool.not_eq_true'] at hbad
      rw [h] at hbad
      cases hbad

lemma alpha_wordDash (c : Char) (h : isAsciiAlpha c = true) : isWordDash c = true := by
  simp [isWordDash, h]

lemma alpha_urlChar (c : Char) (h : isAsciiAlpha c = true) : isUrlChar c = true :=
  wordDash_urlChar c (alpha_wordDash c h)

lemma urlChar_not_space (c : Char) (h : isUrlChar c = true) : isPySpace c = false := by
  simp only [isUrlChar, Bool.and_eq_true, Bool.not_eq_true'] at h
  exact h.1

lemma swCI_length (p l : List Char) (h : swCI p l = true) : p.length ≤ l.length := by
  induction p generalizing l with
  | nil => simp
  | cons a as ih =>
    cases l with
    | nil => cases h
    | cons c cs =>
      simp only [swCI, Bool.and_eq_true] at h
      simpa using ih cs h.2

lemma swCI_take_mem (p l : List Char) (h : swCI p l = true) :
    ∀ c ∈ l.take p.length, ∃ a ∈ p, ciEq a c = true := by
  induction p generalizing l with
  | nil => simp
  | cons a as ih =>
    cases l with
    | nil => cases h
    | cons x cs =>
      simp only [swCI, Bool.and_eq_true] at h
      intro c hc
      simp only [List.length_cons, List.take_succ_cons, List.mem_cons] at hc
      rcases hc with rfl | hc
      · exact ⟨a, List.mem_cons_self a as, h.1⟩
      · obtain ⟨b, hb, hbc⟩ := ih cs h.2 c hc
        exact ⟨b, List.mem_cons_of_mem a hb, hbc⟩

lemma swCI_self_append (p rest : List Char) : swCI p (p ++ rest) = true := by
  induction p with
  | nil => rfl
  | cons a as ih => simp [swCI, ciEq, ih]

lemma prefix_ciEq_urlChar (p : List Char)
    (hp : p.all (fun a => isUrlChar a && isUrlChar a.toUpper) = true)
    (a : Char) (ha : a ∈ p) (c : Char) (hc : ciEq a c = true) : isUrlChar c = true := by
  have hh := all_imp_of_mem hp ha
  simp only [Bool.and_eq_true] at hh
  simp only [ciEq, Bool.or_eq_true, beq_iff_eq] at hc
  rcases hc with rfl | rfl
  · exact hh.1
  · exact hh.2

lemma head_drop_some_lt (l : List Char) (k : Nat) (x : Char)
    (h : (l.drop k).head? = some x) : k < l.length := by
  have hne : l.drop k ≠ [] := by
    intro he
    rw [he] at h
    cases h
  have := List.drop_eq_nil_iff.not.mp (by simpa using hne)
  omega

lemma withRun_spec (k : Nat) (l : List Char) (hk : k ≤ l.length)
    (hpre : ∀ c ∈ l.take k, isUrlChar c = true) :
    withRun k l ≤ l.length ∧ ∀ c ∈ l.take (withRun k l), isUrlChar c = true := by
  have hr := runLen_le isUrlChar (l.drop k)
  rw [List.length_drop] at hr
  simp only [withRun]
  by_cases h0 : runLen isUrlChar (l.drop k) = 0
  · simp [h0]
  · rw [if_neg h0]
    constructor
    · omega
    · intro c hc
      rw [take_add_split l k (runLen isUrlChar (l.drop k))] at hc
      rcases List.mem_append.mp hc with hc | hc
      · exact hpre c hc
      · rw [take_runLen] at hc
        exact List.mem_takeWhile_imp hc

lemma swCI_prefix_urlChars (p l : List Char) (h : swCI p l = true)
    (hp : p.all (fun a => isUrlChar a && isUrlChar a.toUpper) = true) :
    ∀ c ∈ l.take p.length, isUrlChar c = true := by
  intro c hc
  obtain ⟨a, ha, hac⟩ := swCI_take_mem p l h c hc
  exact prefix_ciEq_urlChar p hp a ha c hac

lemma withRun_prefix_spec (l p : List Char) (k : Nat) (hk : p.length = k)
    (hall : p.all (fun a => isUrlChar a && isUrlChar a.toUpper) = true)
    (hsw : swCI p l = true) :
    withRun k l ≤ l.length ∧ ∀ c ∈ l.take (withRun k l), isUrlChar c = true := by
  apply withRun_spec k l
  · rw [← hk]
    exact swCI_length p l hsw
  · rw [← hk]
    exact swCI_prefix_urlChars p l hsw hall

lemma branch1_spec (l : List Char) :
    branch1 l ≤ l.length ∧ ∀ c ∈ l.take (branch1 l), isUrlChar c = true := by
  unfold branch1
  split
  · exact withRun_prefix_spec l sHttps 8 (by decide) (by decide) (by assumption)
  · split
    · exact withRun_prefix_spec l sHttp 7 (by decide) (by decide) (by assumption)
    · split
      · exact withRun_prefix_spec l sFtp 6 (by decide) (by decide) (by assumption)
      · split
        · exact withRun_prefix_spec l sWww 4 (by decide) (by decide) (by assumption)
        · simp

lemma branch3_spec (l : List Char) :
    branch3 l ≤ l.length ∧ ∀ c ∈ l.take (branch3 l), isUrlChar c = true := by
  unfold branch3
  split
  · exact withRun_prefix_spec l sFile 7 (by decide) (by decide) (by assumption)
  · simp

lemma branch4_spec (l : List Char) :
    branch4 l ≤ l.length ∧ ∀ c ∈ l.take (branch4 l), isUrlChar c = true := by
  unfold branch4
  split
  · exact withRun_prefix_spec l sData 5 (by decide) (by decide) (by assumption)
  · simp

lemma letterTail_spec (l : List Char) (n : Nat) (h : letterTail l = some n) :
    n ≤ l.length ∧ ∀ c ∈ l.take n, isUrlChar c = true := by
  simp only [letterTail] at h
  by_cases h2 : 2 ≤ runLen isAsciiAlpha l
  · rw [if_pos h2] at h
    have hkle := runLen_le isAsciiAlpha l
    have hkchars : ∀ c ∈ l.take (runLen isAsciiAlpha l), isUrlChar c = true := by
      intro c hc
      rw [take_runLen] at hc
      exact alpha_urlChar c (List.mem_takeWhile_imp hc)
    by_cases hs : (l.drop (runLen isAsciiAlpha l)).head? = some '/'
    · rw [if_pos hs] at h
      injection h with h
      subst h
      have hlt := head_drop_some_lt l (runLen isAsciiAlpha l) '/' hs
      have hrr := runLen_le isUrlChar (l.drop (runLen isAsciiAlpha l + 1))
      rw [List.length_drop] at hrr
      refine ⟨by omega, ?_⟩
      intro c hc
      have hshape : runLen isAsciiAlpha l + 1
          + runLen isUrlChar (l.drop (runLen isAsciiAlpha l + 1))
          = runLen isAsciiAlpha l + (1
          + runLen isUrlChar (l.drop (runLen isAsciiAlpha l + 1))) := by omega
      rw [hshape, take_add_split] at hc
      rcases List.mem_append.mp hc with hc | hc
      · exact hkchars c hc
      · rw [take_add_split] at hc
        rcases List.mem_append.mp hc with hc | hc
        · rw [take_one_of_head _ _ hs] at hc
          simp only [List.mem_singleton] at hc
          subst hc
          decide
        · rw [List.drop_drop, take_runLen] at hc
          exact List.mem_takeWhile_imp hc
    · rw [if_neg hs] at h
      injection h with h
      subst h
      exact ⟨hkle, hkchars⟩
  · rw [if_neg h2] at h
    cases h

lemma rep_chunk_spec (l : List Char) (m : Nat)
    (hg : 1 ≤ runLen isWordDash l ∧ (l.drop (runLen isWordDash l)).head? = some '.')
    (hm : m ≤ (l.drop (runLen isWordDash l + 1)).length)
    (hchars : ∀ c ∈ (l.drop (runLen isWordDash l + 1)).take m, isUrlChar c = true) :
    runLen isWordDash l + 1 + m ≤ l.length
    ∧ ∀ c ∈ l.take (runLen isWordDash l + 1 + m), isUrlChar c = true := by
  have hlt := head_drop_some_lt l (runLen isWordDash l) '.' hg.2
  rw [List.length_drop] at hm
  refine ⟨by omega, ?_⟩
  intro c hc
  have hshape : runLen isWordDash l + 1 + m = runLen isWordDash l + (1 + m) := by omega
  rw [hshape, take_add_split] at hc
  rcases List.mem_append.mp hc with hc | hc
  · rw [take_runLen] at hc
    exact wordDash_urlChar c (List.mem_takeWhile_imp hc)
  · rw [take_add_split] at hc
    rcases List.mem_append.mp hc with hc | hc
    · rw [take_one_of_head _ _ hg.2] at hc
      simp only [List.mem_singleton] at hc
      subst hc
      decide
    · rw [List.drop_drop] at hc
      exact hchars c hc

lemma b2tailF_spec : ∀ (fuel : Nat) (l : List Char) (n : Nat),
    b2tailF fuel l = some n →
    n ≤ l.length ∧ ∀ c ∈ l.take n, isUrlChar c = true := by
  intro fuel
  induction fuel with
  | zero => intro l n h; cases h
  | succ f ih =>
    intro l n h
    simp only [b2tailF] at h
    by_cases hg : 1 ≤ runLen isWordDash l ∧ (l.drop (runLen isWordDash l)).head? = some '.'
    · rw [if_pos hg] at h
      cases hrec : b2tailF f (l.drop (runLen isWordDash l + 1)) with
      | some m =>
        rw [hrec] at h
        injection h with h
        subst h
        obtain ⟨hm, hcs⟩ := ih _ _ hrec
        exact rep_chunk_spec l m hg hm hcs
      | none =>
        rw [hrec] at h
        exact letterTail_spec l n h
    · rw [if_neg hg] at h
      exact letterTail_spec l n h

lemma branch2_spec (l : List Char) :
    branch2 l ≤ l.length ∧ ∀ c ∈ l.take (branch2 l), isUrlChar c = true := by
  simp only [branch2]
  by_cases hg : 1 ≤ runLen isWordDash l ∧ (l.drop (runLen isWordDash l)).head? = some '.'
  · rw [if_pos hg]
    cases hrec : b2tailF (l.length + 1) (l.drop (runLen isWordDash l + 1)) with
    | none => simp
    | some m =>
      obtain ⟨hm, hcs⟩ := b2tailF_spec _ _ _ hrec
      exact rep_chunk_spec l m hg hm hcs
  · rw [if_neg hg]
    simp

lemma matchLen_spec (l : List Char) :
    matchLenAt l ≤ l.length ∧ ∀ c ∈ l.take (matchLenAt l), isUrlChar c = true := by
  unfold matchLenAt
  split
  · exact branch1_spec l
  · split
    · exact branch2_spec l
    · split
      · exact branch3_spec l
      · exact branch4_spec l

lemma getLast?_drop_of_lt (l : List Char) (n : Nat) (h : n < l.length) :
    (l.drop n).getLast? = l.getLast? := by
  conv_rhs => rw [← List.take_append_drop n l]
  rw [List.getLast?_append]
  have hne : l.drop n ≠ [] := by
    intro he
    have := List.drop_eq_nil_iff.mp he
    omega
  cases hd : (l.drop n).getLast? with
  | none => exact absurd (List.getLast?_eq_none_iff.mp hd) hne
  | some y => simp

/-- Boundary lemma for the findall scan: every character of a match is a
URL character, so no match can start inside `l1` and cross its last
character when that character is not a URL character; hence the scan of
`l1 ++ (u ++ post)` reaches the start of `u` exactly, and a match of
length `u.length` there emits `u` itself. -/
lemma mem_scanF : ∀ (fuel : Nat) (l1 u post : List Char),
    (l1 ++ (u ++ post)).length ≤ fuel →
    (∀ c, l1.getLast? = some c → isUrlChar c = false) →
    matchLenAt (u ++ post) = u.length →
    u ≠ [] →
    u ∈ scanF fuel (l1 ++ (u ++ post)) := by
  intro fuel
  induction fuel with
  | zero =>
    intro l1 u post hlen hlast hmatch hu
    exfalso
    apply hu
    simp only [Nat.le_zero, List.length_append] at hlen
    exact List.length_eq_zero.mp (by omega)
  | succ f ih =>
    intro l1 u post hlen hlast hmatch hu
    cases l1 with
    | nil =>
      obtain ⟨c, u2, rfl⟩ := List.exists_cons_of_ne_nil hu
      have hmatch2 : matchLenAt (c :: (u2 ++ post)) = u2.length + 1 := by
        simpa using hmatch
      simp only [List.nil_append]
      show (c :: u2) ∈ scanF (f + 1) (c :: (u2 ++ post))
      simp only [scanF, hmatch2]
      rw [if_neg (by omega)]
      have htake : (c :: (u2 ++ post)).take (u2.length + 1) = c :: u2 := by
        show ((c :: u2) ++ post).take (c :: u2).length = c :: u2
        exact List.take_left _ _
      rw [htake]
      exact List.mem_cons_self _ _
    | cons c1 cs1 =>
      show u ∈ scanF (f + 1) (c1 :: (cs1 ++ (u ++ post)))
      simp only [scanF]
      set n := matchLenAt (c1 :: (cs1 ++ (u ++ post))) with hn
      by_cases hm : n = 0
      · rw [if_pos hm]
        apply ih cs1 u post
        · simp only [List.length_append, List.length_cons] at hlen ⊢
          omega
        · intro c hc
          apply hlast c
          cases cs1 with
          | nil => cases hc
          | cons b bs => rw [List.getLast?_cons_cons]; exact hc
        · exact hmatch
        · exact hu
      · rw [if_neg hm]
        obtain ⟨hn_le, hn_chars⟩ := matchLen_spec (c1 :: (cs1 ++ (u ++ post)))
        rw [← hn] at hn_le hn_chars
        have hl1ne : (c1 :: cs1 : List Char) ≠ [] := by simp
        have hxlast : (c1 :: cs1).getLast? = some ((c1 :: cs1).getLast hl1ne) :=
          List.getLast?_eq_getLast _ hl1ne
        have hxbad := hlast _ hxlast
        have hnle : n ≤ cs1.length := by
          by_contra hgt
          push_neg at hgt
          have hxmem2 : (c1 :: cs1).getLast hl1ne
              ∈ (c1 :: (cs1 ++ (u ++ post))).take n := by
            show (c1 :: cs1).getLast hl1ne ∈ ((c1 :: cs1) ++ (u ++ post)).take n
            rw [List.take_append_eq_append_take]
            apply List.mem_append_left
            rw [List.take_of_length_le (by simp only [List.length_cons]; omega)]
            exact List.getLast_mem hl1ne
          have hbad2 := hn_chars _ hxmem2
          rw [hxbad] at hbad2
          cases hbad2
        apply List.mem_cons_of_mem
        have hdrop : (c1 :: (cs1 ++ (u ++ post))).drop n
            = ((c1 :: cs1).drop n) ++ (u ++ post) := by
          show ((c1 :: cs1) ++ (u ++ post)).drop n = ((c1 :: cs1).drop n) ++ (u ++ post)
          rw [List.drop_append_eq_append_drop]
          have h0 : n - (c1 :: cs1).length = 0 := by
            simp only [List.length_cons]
            omega
          rw [h0, List.drop_zero]
        rw [hdrop]
        apply ih ((c1 :: cs1).drop n) u post
        · simp only [List.length_append, List.length_cons, List.length_drop] at hlen ⊢
          omega
        · intro c hc
          apply hlast c
          rw [← getLast?_drop_of_lt (c1 :: cs1) n (by simp only [List.length_cons]; omega)]
          exact hc
        · exact hmatch
        · exact hu

lemma mem_pyFindall (l1 u post : List Char)
    (hlast : ∀ c, l1.getLast? = some c → isUrlChar c = false)
    (hmatch : matchLenAt (u ++ post) = u.length)
    (hu : u ≠ []) :
    u ∈ pyFindall (l1 ++ (u ++ post)) := by
  unfold pyFindall
  exact mem_scanF _ l1 u post (Nat.le_refl _) hlast hmatch hu

lemma strDataAppend (a b : String) : (a ++ b).data = a.data ++ b.data := by
  cases a
  cases b
  rfl

lemma strMkData (s : String) : String.mk s.data = s := by
  cases s
  rfl

lemma strEmptyIffData (s : String) : s = ("") ↔ s.data = [] := by
  cases s with
  | mk d =>
    constructor
    · intro h
      rw [h]
    · intro h
      have hd : d = [] := h
      rw [hd]

lemma dropWhile_eq_self_of_all (p : Char → Bool) (l : List Char)
    (h : ∀ c ∈ l, p c = false) : l.dropWhile p = l := by
  cases l with
  | nil => rfl
  | cons c cs => simp [List.dropWhile_cons, h c (List.mem_cons_self c cs)]

lemma pyStripL_eq_self (l : List Char) (h : ∀ c ∈ l, isPySpace c = false) :
    pyStripL l = l := by
  unfold pyStripL
  rw [dropWhile_eq_self_of_all _ _ h]
  rw [dropWhile_eq_self_of_all _ _ (by intro c hc; exact h c (List.mem_reverse.mp hc))]
  exact List.reverse_reverse l

lemma matchesScheme_https (rest : List Char) :
    matchesScheme ('h' :: 't' :: 't' :: 'p' :: 's' :: ':' :: rest) = true := by
  have ht : isSchemeChar 't' = true := by decide
  have hq : isSchemeChar 'p' = true := by decide
  have hs : isSchemeChar 's' = true := by decide
  have hc : isSchemeChar ':' = false := by decide
  have hh : isAsciiAlpha 'h' = true := by decide
  simp [matchesScheme, List.dropWhile_cons, ht, hq, hs, hc, hh]

lemma splitSchemeRest_https (rest : List Char) :
    splitSchemeRest ('h' :: 't' :: 't' :: 'p' :: 's' :: ':' :: rest)
      = some (('h' :: 't' :: 't' :: 'p' :: 's' :: []), rest) := by
  have ht : isSchemeChar 't' = true := by decide
  have hq : isSchemeChar 'p' = true := by decide
  have hs : isSchemeChar 's' = true := by decide
  have hc : isSchemeChar ':' = false := by decide
  have hh : isAsciiAlpha 'h' = true := by decide
  simp [splitSchemeRest, List.dropWhile_cons, List.takeWhile_cons, ht, hq, hs, hc, hh]

/-- C5 counterexample.  The claim quantifies over arbitrary surrounding
text, but a URL character immediately after the URL extends the greedy
regex match: on the text `"https://host/path."` (the valid absolute URL
`https://host/path` embedded with a trailing `.`), the match swallows the
dot, so the output contains `"https://host/path."` and not the embedded
URL itself. -/
theorem embedded_https_not_extracted :
    ("https://host/path") ∉ extract_urls ("https://host/path.")
    ∧ extract_urls ("https://host/path.") = [("https://host/path.")] := by decide

/-- C5 (amended).  For every valid absolute `https://host/path` URL
(non-empty host of URL characters other than `/`, `?`, `#`; path of URL
characters) embedded in surrounding text that does not touch it with URL
characters — the character just before (if any) and just after (if any)
the occurrence are not URL characters — the output of `extract_urls`
contains that exact string unchanged. -/
theorem extract_urls_contains_https : ∀ (pre hst pth post : String),
    hst ≠ ("") →
    (∀ c ∈ hst.data, isUrlChar c = true ∧ c ≠ '/' ∧ c ≠ '?' ∧ c ≠ '#') →
    (∀ c ∈ pth.data, isUrlChar c = true) →
    (∀ c, pre.data.getLast? = some c → isUrlChar c = false) →
    (∀ c, post.data.head? = some c → isUrlChar c = false) →
    ("https://" ++ hst ++ ("/") ++ pth)
      ∈ extract_urls (pre ++ (("https://" ++ hst ++ ("/") ++ pth)) ++ post) := by
  intro pre hst pth post hne hh hp hpre hpost
  set u : String := ("https://" ++ hst ++ ("/") ++ pth) with hu
  have hud : u.data = sHttps ++ (hst.data ++ ('/' :: pth.data)) := by
    rw [hu, strDataAppend, strDataAppend, strDataAppend]
    rw [show ("/" : String).data = ['/'] from rfl]
    rw [show ("https://" : String).data = sHttps from rfl]
    simp [List.append_assoc]
  have hudcons : u.data
      = 'h' :: 't' :: 't' :: 'p' :: 's' :: ':' :: '/' :: '/' :: (hst.data ++ ('/' :: pth.data)) := by
    rw [hud]
    rfl
  have hcs_all : ∀ c ∈ (hst.data ++ ('/' :: pth.data)), isUrlChar c = true := by
    intro c hc
    rcases List.mem_append.mp hc with hc | hc
    · exact (hh c hc).1
    · rcases List.mem_cons.mp hc with rfl | hc
      · decide
      · exact hp c hc
  have hchars : ∀ c ∈ u.data, isUrlChar c = true := by
    intro c hc
    rw [hud] at hc
    rcases List.mem_append.mp hc with hc | hc
    · exact all_imp_of_mem (p := isUrlChar) (l := sHttps) (by decide) hc
    · exact hcs_all c hc
  have hrun : runLen isUrlChar ((hst.data ++ ('/' :: pth.data)) ++ post.data)
      = (hst.data ++ ('/' :: pth.data)).length := by
    rw [runLen_append_all isUrlChar _ post.data hcs_all,
      runLen_eq_zero_of_head isUrlChar post.data hpost]
    omega
  have hb1 : branch1 (u.data ++ post.data) = u.data.length := by
    have hsw : swCI sHttps (u.data ++ post.data) = true := by
      rw [hud, List.append_assoc]
      exact swCI_self_append sHttps _
    have hdrop8 : (u.data ++ post.data).drop 8 = (hst.data ++ ('/' :: pth.data)) ++ post.data := by
      rw [hud, List.append_assoc]
      have h8 : sHttps.length = 8 := by decide
      exact List.drop_left' h8
    unfold branch1
    rw [if_pos hsw]
    simp only [withRun, hdrop8, hrun]
    rw [if_neg (by simp)]
    rw [hud]
    have h8 : sHttps.length = 8 := by decide
    simp [List.length_append, h8]
  have hml : matchLenAt (u.data ++ post.data) = u.data.length := by
    unfold matchLenAt
    rw [hb1]
    rw [if_pos (by rw [hudcons]; simp)]
  have htext : (pre ++ u ++ post).data = pre.data ++ (u.data ++ post.data) := by
    rw [strDataAppend, strDataAppend, List.append_assoc]
  have hstrip : pyStripL u.data = u.data :=
    pyStripL_eq_self u.data (fun c hc => urlChar_not_space c (hchars c hc))
  have hnorm : normalizeUrl u = u := by
    have hms : matchesScheme u.data = true := by
      rw [hudcons]
      exact matchesScheme_https _
    simp [normalizeUrl, hms]
  have hsplit : splitSchemeRest u.data
      = some (('h' :: 't' :: 't' :: 'p' :: 's' :: []),
        ('/' :: '/' :: (hst.data ++ ('/' :: pth.data)))) := by
    rw [hudcons]
    exact splitSchemeRest_https _
  have hnetloc_tw : (hst.data ++ ('/' :: pth.data)).takeWhile notNetDelim = hst.data := by
    have hall : ∀ a ∈ hst.data, notNetDelim a := by
      intro c hc
      obtain ⟨_, h1, h2, h3⟩ := hh c hc
      simp [notNetDelim, h1, h2, h3]
    rw [List.takeWhile_append_of_pos hall, List.takeWhile_cons_of_neg (by decide)]
    simp
  have hparse : urlparseSN u = ⟨("https"), hst⟩ := by
    unfold urlparseSN
    rw [hsplit]
    show (⟨String.mk ((('h' :: 't' :: 't' :: 'p' :: 's' :: []).map Char.toLower)),
        netlocOf ('/' :: '/' :: (hst.data ++ ('/' :: pth.data)))⟩ : UrlParts)
      = ⟨("https"), hst⟩
    have h1 : String.mk ((('h' :: 't' :: 't' :: 'p' :: 's' :: []).map Char.toLower))
        = ("https") := by decide
    have h2 : netlocOf ('/' :: '/' :: (hst.data ++ ('/' :: pth.data))) = hst := by
      unfold netlocOf
      have hcnd : List.take 2 ('/' :: '/' :: (hst.data ++ ('/' :: pth.data)))
          = ['/', '/'] := rfl
      rw [if_pos hcnd]
      rw [show (('/' :: '/' :: (hst.data ++ ('/' :: pth.data))).drop 2)
        = hst.data ++ ('/' :: pth.data) from rfl]
      rw [hnetloc_tw, strMkData]
    rw [h1, h2]
  have hvalid : validUrl u = true := by
    have e1 : ((("https") : String) == ("")) = false := by decide
    have e2 : (hst == ("")) = false := beq_eq_false_iff_ne.mpr hne
    simp [validUrl, hparse, e1, e2]
  have hpm : processMatch u.data = some u := by
    simp only [processMatch, hstrip, strMkData, hnorm]
    simp [hvalid]
  have htne : (pre ++ u ++ post) ≠ ("") := by
    intro he
    have hd := (strEmptyIffData _).mp he
    rw [htext, hudcons] at hd
    simp at hd
  unfold extract_urls
  rw [if_neg htne, List.mem_dedup]
  apply List.mem_filterMap.mpr
  refine ⟨u.data, ?_, hpm⟩
  rw [htext]
  exact mem_pyFindall pre.data u.data post.data hpre hml (by rw [hudcons]; simp)

/-- Witness for C5 (amended) at a concrete embedding. -/
theorem extract_urls_contains_https_witness :
    ("https://" ++ ("host") ++ ("/") ++ ("path"))
      ∈ extract_urls (("see ") ++ (("https://" ++ ("host") ++ ("/") ++ ("path"))) ++ (" ok")) :=
  extract_urls_contains_https ("see ") ("host") ("path") (" ok")
    (by decide) (by decide) (by decide) (by decide) (by decide)

lemma swCI_cons_false (a c : Char) (h : ciEq a c = false) (as cs : List Char) :
    swCI (a :: as) (c :: cs) = false := by
  simp [swCI, h]

lemma bool_ne_true_of_eq_false {b : Bool} (h : b = false) : ¬(b = true) := by
  rw [h]
  exact Bool.false_ne_true

/-- C6 counterexample.  The claim's "for any text containing
`www.example.com`" fails: in `"xwww.example.com"` the leftmost regex match
(branch `(?:[\w-]+\.)+[a-zA-Z]{2,}`) is the whole token
`xwww.example.com`, which normalizes to `https://xwww.example.com`, so
`https://www.example.com` is not in the output. -/
theorem www_embedded_not_extracted :
    ("https://www.example.com") ∉ extract_urls ("xwww.example.com")
    ∧ extract_urls ("xwww.example.com") = [("https://xwww.example.com")] := by decide

/-- C6 (amended).  The normalization rule holds as stated: a raw match
without a scheme prefix gets `https://` prepended when it starts with
`www.`, or when it contains a dot and does not start with a dot.  And for
text in which `www.example.com` is not touched by URL characters (the
character just before / after the occurrence, if any, is not a URL
character), the output contains `https://www.example.com`. -/
theorem www_normalization_and_extraction :
    (∀ s : String, matchesScheme s.data = false →
      (swLit sWww s.data = true → normalizeUrl s = ("https://") ++ s)
      ∧ (swLit sWww s.data = false → s.data.contains '.' = true →
          swLit [('.')] s.data = false → normalizeUrl s = ("https://") ++ s))
    ∧ (∀ pre post : String,
        (∀ c, pre.data.getLast? = some c → isUrlChar c = false) →
        (∀ c, post.data.head? = some c → isUrlChar c = false) →
        ("https://www.example.com") ∈ extract_urls (pre ++ ("www.example.com") ++ post)) := by
  constructor
  · intro s hms
    constructor
    · intro hw
      simp [normalizeUrl, hms, hw]
    · intro hw hdot hnd
      have hdot2 : '.' ∈ s.data := by simpa using hdot
      simp [normalizeUrl, hms, hw, hdot2, hnd]
  · intro pre post hpre hpost
    set u : String := ("www.example.com") with hu
    have hudf : u.data = sWww ++ ("example.com").data := by decide
    have hform : u.data ++ post.data = sWww ++ (("example.com").data ++ post.data) := by
      rw [hudf, List.append_assoc]
    have hrun : runLen isUrlChar (("example.com").data ++ post.data) = 11 := by
      rw [runLen_append_all isUrlChar _ post.data (by decide),
        runLen_eq_zero_of_head isUrlChar post.data hpost]
      decide
    have hb1 : branch1 (u.data ++ post.data) = 15 := by
      have hw1 : swCI sHttps (u.data ++ post.data) = false := by
        rw [show u.data ++ post.data = 'w' :: (("ww.example.com").data ++ post.data) from rfl]
        rw [show sHttps = 'h' :: ("ttps://").data from rfl]
        exact swCI_cons_false _ _ (by decide) _ _
      have hw2 : swCI sHttp (u.data ++ post.data) = false := by
        rw [show u.data ++ post.data = 'w' :: (("ww.example.com").data ++ post.data) from rfl]
        rw [show sHttp = 'h' :: ("ttp://").data from rfl]
        exact swCI_cons_false _ _ (by decide) _ _
      have hw3 : swCI sFtp (u.data ++ post.data) = false := by
        rw [show u.data ++ post.data = 'w' :: (("ww.example.com").data ++ post.data) from rfl]
        rw [show sFtp = 'f' :: ("tp://").data from rfl]
        exact swCI_cons_false _ _ (by decide) _ _
      have hw4 : swCI sWww (u.data ++ post.data) = true := by
        rw [hform]
        exact swCI_self_append _ _
      unfold branch1
      rw [if_neg (bool_ne_true_of_eq_false hw1), if_neg (bool_ne_true_of_eq_false hw2),
        if_neg (bool_ne_true_of_eq_false hw3), if_pos hw4]
      simp only [withRun]
      have hdrop4 : (u.data ++ post.data).drop 4 = ("example.com").data ++ post.data := by
        rw [hform]
        have h4l : sWww.length = 4 := by decide
        exact List.drop_left' h4l
      rw [hdrop4, hrun]
      decide
    have hml : matchLenAt (u.data ++ post.data) = u.data.length := by
      have h15 : u.data.length = 15 := by decide
      unfold matchLenAt
      rw [hb1, h15, if_pos (show (15 : Nat) ≠ 0 by decide)]
    have hpm : processMatch u.data = some (("https://www.example.com")) := by decide
    have htext : (pre ++ u ++ post).data = pre.data ++ (u.data ++ post.data) := by
      rw [strDataAppend, strDataAppend, List.append_assoc]
    have htne : (pre ++ u ++ post) ≠ ("") := by
      intro he
      have hd := (strEmptyIffData _).mp he
      rw [htext] at hd
      rw [show u.data = 'w' :: ("ww.example.com").data from rfl] at hd
      simp at hd
    unfold extract_urls
    rw [if_neg htne, List.mem_dedup]
    apply List.mem_filterMap.mpr
    refine ⟨u.data, ?_, hpm⟩
    rw [htext]
    exact mem_pyFindall pre.data u.data post.data hpre hml (by decide)

/-- Witness for C6 (amended): both conjuncts at concrete inputs. -/
theorem www_normalization_and_extraction_witness :
    normalizeUrl ("www.example.com") = ("https://") ++ ("www.example.com")
    ∧ ("https://www.example.com") ∈ extract_urls (("go ") ++ ("www.example.com") ++ (" now")) :=
  ⟨(www_normalization_and_extraction.1 ("www.example.com") (by decide)).1 (by decide),
   www_normalization_and_extraction.2 ("go ") (" now") (by decide) (by decide)⟩
